import Mathlib

/-!
Verification of the Perspective Streaming & Stratified Selection Coordinator
(frontend Component3, `ExpandablePerspectiveCards.js`) against its
natural-language specification.

The state and event handlers below are a shallow embedding of the source:
JavaScript objects keyed by color strings become insertion-ordered
association lists (`PMap`), the React component state becomes `C3State`,
and the WebSocket/polling handlers become pure step functions on that
state.  Side-effecting requests (opening the socket, triggering the run,
fetching results) are represented as emitted `Act` values.
-/

/-- One generated perspective, as carried in push/pull payloads
(`id`, `bias_x`, `significance_y`, `text`). -/
structure Perspective where
  id : String
  bias_x : ℚ
  significance_y : ℚ
  text : String
deriving DecidableEq, Repr

/-- A JavaScript object mapping color strings to perspective arrays,
with insertion order of the keys significant (as `Object.keys` /
`Object.entries` enumerate string keys in insertion order). -/
abbrev PMap := List (String × List Perspective)

/-- Property read `m[c]`: the value at the first (unique) matching key. -/
def pmFind : PMap → String → Option (List Perspective)
  | [], _ => none
  | (k, v) :: rest, c => if k = c then some v else pmFind rest c

/-- Property write `{...m, [c]: v}`: updates an existing key in place
(keeping its position) or appends a new key at the end. -/
def pmSet : PMap → String → List Perspective → PMap
  | [], c, v => [(c, v)]
  | (k, w) :: rest, c, v =>
    if k = c then (k, v) :: rest else (k, w) :: pmSet rest c v

/-- Key list `Object.keys m`, in insertion order. -/
def pmKeys (m : PMap) : List String := m.map Prod.fst

/-- Length of the array held for a group, `(m[c] || []).length`. -/
def heldLen (m : PMap) (c : String) : ℕ := ((pmFind m c).getD []).length

/-- Number of occurrences of a perspective id across the entire map. -/
def idCount (m : PMap) (i : String) : ℕ :=
  (m.map (fun e => (e.2.filter (fun p => p.id = i)).length)).sum

theorem pmFind_pmSet_self (m : PMap) (c : String) (v : List Perspective) :
    pmFind (pmSet m c v) c = some v := by
  induction m with
  | nil => simp [pmSet, pmFind]
  | cons e rest ih =>
    obtain ⟨k, w⟩ := e
    by_cases h : k = c
    · simp [pmSet, pmFind, h]
    · simp [pmSet, pmFind, h, ih]

theorem pmFind_pmSet_ne (m : PMap) (c c' : String) (v : List Perspective)
    (h : c' ≠ c) : pmFind (pmSet m c v) c' = pmFind m c' := by
  induction m with
  | nil =>
    have hcc : ¬c = c' := fun hc => h hc.symm
    simp [pmSet, pmFind, hcc]
  | cons e rest ih =>
    obtain ⟨k, w⟩ := e
    by_cases hk : k = c
    · subst hk
      have hcc : ¬k = c' := fun hc => h hc.symm
      simp [pmSet, pmFind, hcc]
    · simp [pmSet, pmFind, hk, ih]

theorem pmSet_pmSet_same (m : PMap) (c : String) (v : List Perspective) :
    pmSet (pmSet m c v) c v = pmSet m c v := by
  induction m with
  | nil => simp [pmSet]
  | cons e rest ih =>
    obtain ⟨k, w⟩ := e
    by_cases h : k = c
    · simp [pmSet, h]
    · simp [pmSet, h, ih]

theorem pmKeys_pmSet (m : PMap) (c : String) (v : List Perspective) :
    pmKeys (pmSet m c v) =
      if c ∈ pmKeys m then pmKeys m else pmKeys m ++ [c] := by
  induction m with
  | nil => simp [pmSet, pmKeys]
  | cons e rest ih =>
    obtain ⟨k, w⟩ := e
    by_cases h : k = c
    · subst h
      simp [pmSet, pmKeys]
    · have h1 : pmSet ((k, w) :: rest) c v = (k, w) :: pmSet rest c v := by
        simp [pmSet, h]
      have h2 : pmKeys ((k, w) :: pmSet rest c v) = k :: pmKeys (pmSet rest c v) := rfl
      have h3 : pmKeys ((k, w) :: rest) = k :: pmKeys rest := rfl
      rw [h1, h2, h3, ih]
      have hck : ¬c = k := fun hc => h hc.symm
      by_cases hm : c ∈ pmKeys rest
      · simp [hm, hck]
      · simp [hm, hck]

theorem pmKeys_pmSet_subset (m : PMap) (c : String) (v : List Perspective) :
    ∀ x ∈ pmKeys (pmSet m c v), x = c ∨ x ∈ pmKeys m := by
  intro x hx
  rw [pmKeys_pmSet] at hx
  by_cases hm : c ∈ pmKeys m
  · simp [hm] at hx
    exact Or.inr hx
  · simp [hm] at hx
    rcases hx with hx | hx
    · exact Or.inr hx
    · exact Or.inl hx

theorem pmFind_isSome_mem_keys (m : PMap) (c : String)
    (h : (pmFind m c).isSome = true) : c ∈ pmKeys m := by
  induction m with
  | nil => simp [pmFind] at h
  | cons e rest ih =>
    obtain ⟨k, w⟩ := e
    by_cases hk : k = c
    · simp [pmKeys, hk]
    · simp [pmFind, hk] at h
      simp [pmKeys]
      exact Or.inr (by simpa [pmKeys] using ih h)

/-- Run stages used by `Component3` (`idle|queued|module1|module2|module3|done|error`),
kept as strings since the polled status is matched as strings in the source. -/
abbrev Stage := String

/-- Side-effecting requests the handlers issue, represented as data:
opening the push-channel WebSocket, POSTing `/run`, and GETting `/results`. -/
inductive Act where
  | openSocket
  | triggerRun
  | fetchResults
deriving DecidableEq, Repr

/-- The `Component3` state: run status, reconciled per-color perspectives,
reveal sequence, chart flags, and the polling/error bookkeeping. -/
structure C3State where
  stage : Stage
  progress : ℤ
  error : Option String
  results : Option String
  perspectivesByColor : PMap
  revealedColors : List String
  showChart : Bool
  chartFullyLoaded : Bool
  cacheAvailable : Bool
  selectedPerspectives : List Perspective
  polling : Bool
deriving DecidableEq, Repr

/-- The initial (mount-time) component state. -/
def initState : C3State :=
  { stage := "idle", progress := 0, error := none, results := none,
    perspectivesByColor := [], revealedColors := [], showChart := false,
    chartFullyLoaded := false, cacheAvailable := false,
    selectedPerspectives := [], polling := false }

/-- A parsed WebSocket message as seen by `ws.onmessage`: whether
`JSON.parse` succeeded, the `color` property (`none` when absent),
the `perspectives` property (`none` when absent or not an array), and
the `type` property (for ping messages). -/
structure WsMsg where
  parsed : Bool
  color : Option String
  perspectives : Option (List Perspective)
  msgType : Option String
deriving DecidableEq, Repr

/-- A well-formed push-delta message `{color, perspectives}`. -/
def deltaMsg (c : String) (ps : List Perspective) : WsMsg :=
  { parsed := true, color := some c, perspectives := some ps, msgType := none }

/-- Handler `ws.onmessage` (startPipeline variant): if the message parses and has a
truthy `color` and an array `perspectives`, the held array for that color is
replaced (`setPerspectivesByColor(prev => ({...prev, [data.color]: data.perspectives}))`)
and the color is appended to the reveal sequence if not yet present; ping and
unexpected-format messages, and parse failures, only log. -/
def wsOnMessage (s : C3State) (m : WsMsg) : C3State :=
  if m.parsed = false then s
  else
    match m.color, m.perspectives with
    | some c, some ps =>
      if c = "" then s
      else
        { s with
          perspectivesByColor := pmSet s.perspectivesByColor c ps,
          revealedColors :=
            if c ∈ s.revealedColors then s.revealedColors
            else s.revealedColors ++ [c] }
    | _, _ => s

/-- Start request `startPipeline`: a no-op unless the stage is idle/error/done; otherwise
resets error/results/progress, sets the stage to `queued`, clears the
reconciled map, cache availability, selection, chart flag and reveal
sequence, and opens the WebSocket (the `/run` POST and the polling loop
follow only from the socket's `onopen`). -/
def startPipeline (s : C3State) : C3State × List Act :=
  if s.stage ≠ "idle" ∧ s.stage ≠ "error" ∧ s.stage ≠ "done" then (s, [])
  else
    ({ s with
        error := none, results := none, progress := 0, stage := "queued",
        perspectivesByColor := [], cacheAvailable := false,
        selectedPerspectives := [], showChart := false, revealedColors := [] },
      [Act.openSocket])

/-- Handler `ws.onopen`: triggers the pipeline via POST `/run`. -/
def wsOnOpen (s : C3State) : C3State × List Act := (s, [Act.triggerRun])

/-- Call `beginPolling` (on successful `/run` response): the status-poll interval
is (re)started. -/
def beginPolling (s : C3State) : C3State := { s with polling := true }

/-- Snapshot/cache payload as returned by GET `/ws/cache`: entries are the
object's properties in insertion order; `none` marks a value that is not an
array (`Array.isArray` fails). -/
abbrev Cache := List (String × Option (List Perspective))

/-- Property read `cacheData[c]` on the cache object. -/
def cacheLookup : Cache → String → Option (Option (List Perspective))
  | [], _ => none
  | e :: rest, c => if e.1 = c then some e.2 else cacheLookup rest c

/-- One step of the `Object.entries(cacheData).forEach` loop in
`beginPolling`: a non-empty pulled array whose length differs from the held
length replaces the held array for that color. -/
def cacheEntryStep (m : PMap) (e : String × Option (List Perspective)) : PMap :=
  match e with
  | (c, some ps) =>
    if 0 < ps.length ∧ heldLen m c ≠ ps.length then pmSet m c ps else m
  | (_, none) => m

/-- The cache merge performed while polling in stage `module3`: every entry
is processed by `cacheEntryStep`, then a non-empty `violet` entry is applied
unconditionally ("Special handling for violet"). -/
def snapshotPull (m : PMap) (cd : Cache) : PMap :=
  let m1 := cd.foldl cacheEntryStep m
  match cacheLookup cd "violet" with
  | some (some ps) => if 0 < ps.length then pmSet m1 "violet" ps else m1
  | _ => m1

/-- A polled `/status` response body `{stage, progress, error?}`. -/
structure StatusResp where
  stage : Option String
  progress : Option ℤ
  error : Option String
deriving DecidableEq, Repr

/-- JavaScript `x || d` for an optional string (absent and `""` are falsy). -/
def jsStr (o : Option String) (d : String) : String :=
  match o with
  | some x => if x = "" then d else x
  | none => d

/-- JavaScript truthiness of an optional error string. -/
def errTruthy (o : Option String) : Bool :=
  match o with
  | some e => e ≠ ""
  | none => false

/-- One tick of the `beginPolling` interval, given the `/status` response
and, when the stage-`module3` cache request was made and succeeded, its
payload: updates stage/progress, merges the cache snapshot, and on a truthy
`error` records it, stops the interval and enters the `error` stage; on
stage `done` stops the interval and fetches results. -/
def pollStatusStep (s : C3State) (r : StatusResp) (cache : Option Cache) :
    C3State × List Act :=
  let pbc :=
    if r.stage = some "module3" ∧ 0 < r.progress.getD 0 then
      match cache with
      | some cd => snapshotPull s.perspectivesByColor cd
      | none => s.perspectivesByColor
    else s.perspectivesByColor
  let s2 :=
    { s with stage := jsStr r.stage "idle", progress := r.progress.getD 0,
             perspectivesByColor := pbc }
  match r.error with
  | some e =>
    if e ≠ "" then
      ({ s2 with error := some e, polling := false, stage := "error" }, [])
    else if r.stage = some "done" then ({ s2 with polling := false }, [Act.fetchResults])
    else (s2, [])
  | none =>
    if r.stage = some "done" then ({ s2 with polling := false }, [Act.fetchResults])
    else (s2, [])

/-- Handler `loadCache`: replaces the reconciled map with the probed cache snapshot
(keeping only non-empty array entries, in cache insertion order) and fakes a
near-complete `module3` stage; the reveal sequence is not touched. -/
def loadCache (s : C3State) (snap : Cache) : C3State :=
  let byColor :=
    snap.foldl
      (fun acc e =>
        match e with
        | (c, some arr) => if arr ≠ [] then pmSet acc c arr else acc
        | (_, none) => acc)
      []
  { s with perspectivesByColor := byColor, stage := "module3", progress := 95 }

/-- The deferred chart mount: once at least one color has arrived and the
chart is not yet shown, it is mounted. -/
def mountChart (s : C3State) : C3State :=
  if s.showChart = false ∧ pmKeys s.perspectivesByColor ≠ [] then
    { s with showChart := true }
  else s

/-- One firing of the progressive-reveal effect: when the chart is mounted
and colors are known, either marks the chart fully loaded (all colors
revealed) or reveals the first not-yet-revealed color in key insertion
order (`allColors.filter(c => !revealedColors.includes(c))[0]`). -/
def revealTick (s : C3State) : C3State :=
  if s.showChart = false then s
  else
    let allColors := pmKeys s.perspectivesByColor
    if allColors = [] then s
    else if allColors.length ≤ s.revealedColors.length then
      { s with chartFullyLoaded := true }
    else
      match allColors.filter (fun c => decide (c ∉ s.revealedColors)) with
      | [] => s
      | next :: _ =>
        if next ∈ s.revealedColors then s
        else { s with revealedColors := s.revealedColors ++ [next] }

/-- Body of the `revealedColors.forEach` loop building the chart input:
`if (perspectivesByColor[c]) obj[c] = perspectivesByColor[c]` (an array
property, even empty, is truthy, so the test is key presence). -/
def chartStep (pbc : PMap) (obj : PMap) (c : String) : PMap :=
  match pmFind pbc c with
  | some ps => pmSet obj c ps
  | none => obj

/-- The memoized chart input: empty until the chart is mounted, otherwise
the revealed colors (in reveal order) that are present in the reconciled
map, with their held arrays. -/
def chartPerspectives (s : C3State) : PMap :=
  if s.showChart = false then []
  else s.revealedColors.foldl (chartStep s.perspectivesByColor) []

/-- The spectral display order used by the cards grid
(`["red","orange","yellow","green","teal","blue","indigo","violet","purple"]`),
with unknown colors ordered last. -/
def spectralOrder : List String :=
  ["red", "orange", "yellow", "green", "teal", "blue", "indigo", "violet", "purple"]

/-- Ordinal of a color in the fixed spectral order (unknowns after all). -/
def spectralIdx (c : String) : ℕ :=
  let i := spectralOrder.indexOf c
  if i = spectralOrder.length then spectralOrder.length + 1 else i

/-- Clamp applied to a caller-supplied significance score
(`Math.min(1, Math.max(0, inputSignificance))`). -/
noncomputable def clampSig (x : ℝ) : ℝ := min 1 (max 0 x)

/-- The inverse significance derivation in `buildSignificanceExplanation`:
`s = Math.pow(Math.max(0, (N - 8)) / 128, 1 / 2.8)` over idealized reals.
Note that only the lower end is clamped (via `Math.max(0, ...)`). -/
noncomputable def inferSignificance (N : ℤ) : ℝ :=
  (max 0 ((N : ℝ) - 8) / 128) ^ ((1 : ℝ) / 2.8)

/-- The record built by `buildSignificanceExplanation`. -/
structure SigExplanation where
  n : ℤ
  s : ℝ
  raw : ℝ
  forward : ℤ
  derived : Bool

/-- Function `buildSignificanceExplanation(totalPerspectives, inputSignificance)`:
`null` when the total is zero (falsy); otherwise uses the clamped input
significance when supplied, or derives it from the count via
`inferSignificance`, and recomputes the forward map `ceil(128*s^2.8 + 8)`. -/
noncomputable def buildSignificanceExplanation (total : ℤ) (inputSig : Option ℝ) :
    Option SigExplanation :=
  if total = 0 then none
  else
    let s :=
      match inputSig with
      | some v => clampSig v
      | none => inferSignificance total
    let raw := 128 * s ^ (2.8 : ℝ) + 8
    some { n := total, s := s, raw := raw, forward := ⌈raw⌉, derived := inputSig.isNone }

/-- The three ideological bands of the stratified selector. -/
inductive Band where
  | left
  | common
  | right
deriving DecidableEq, Repr

/-- An integer per band (used both for band population sizes and quotas). -/
structure BandVals where
  left : ℤ
  common : ℤ
  right : ℤ
deriving DecidableEq, Repr

/-- Value held for one band. -/
def BandVals.get (m : BandVals) : Band → ℤ
  | Band.left => m.left
  | Band.common => m.common
  | Band.right => m.right

/-- Write one band's value. -/
def BandVals.set (m : BandVals) : Band → ℤ → BandVals
  | Band.left, v => { m with left := v }
  | Band.common, v => { m with common := v }
  | Band.right, v => { m with right := v }

/-- Sum of the three per-band values. -/
def BandVals.total (m : BandVals) : ℤ := m.left + m.common + m.right

/-- Modelled from the spec: the quota allocator's per-band raw share
`raw[b] = (bandSizes[b] / totalPopulation) * k` (the allocator itself,
`QuotaAllocator.allocate` of `TOP-N_K_MEANS-CLUSTERING.py`, is not part of
the frontend sources; it is reconstructed here from the spec's §4.2
algorithm). -/
def rawShare (sizes : BandVals) (k : ℤ) (b : Band) : ℚ :=
  ((sizes.get b : ℚ) / (sizes.total : ℚ)) * (k : ℚ)

/-- Modelled from the spec: fractional remainder of a band's raw share,
used to pick which band's quota to adjust during rebalancing. -/
def fracRem (sizes : BandVals) (k : ℤ) (b : Band) : ℚ :=
  Int.fract (rawShare sizes k b)

/-- Modelled from the spec: the initial quotas `q[b] = round(raw[b])`. -/
def initQ (sizes : BandVals) (k : ℤ) : BandVals :=
  { left := round (rawShare sizes k Band.left),
    common := round (rawShare sizes k Band.common),
    right := round (rawShare sizes k Band.right) }

/-- Modelled from the spec: among bands whose quota can still grow
(`q[b] < bandSizes[b]`), the one with the largest fractional remainder. -/
def pickUp (sizes q : BandVals) (fr : Band → ℚ) : Option Band :=
  ([Band.left, Band.common, Band.right].filter
      (fun b => decide (q.get b < sizes.get b))).argmax fr

/-- Modelled from the spec: among bands whose quota can still shrink
(`q[b] > 0`), the one with the smallest fractional remainder. -/
def pickDown (q : BandVals) (fr : Band → ℚ) : Option Band :=
  ([Band.left, Band.common, Band.right].filter
      (fun b => decide (0 < q.get b))).argmin fr

/-- Modelled from the spec: the rebalancing loop — while `delta != 0`,
adjust an eligible band's quota by `±1` toward the target; `fuel` bounds
the iteration count (the caller passes `|k - sum(q)|`, which is exactly the
number of steps the loop makes). -/
def rebalance (sizes : BandVals) (k : ℤ) (fr : Band → ℚ) :
    ℕ → BandVals → BandVals
  | 0, q => q
  | fuel + 1, q =>
    if 0 < k - q.total then
      match pickUp sizes q fr with
      | some b => rebalance sizes k fr fuel (q.set b (q.get b + 1))
      | none => q
    else if k - q.total < 0 then
      match pickDown q fr with
      | some b => rebalance sizes k fr fuel (q.set b (q.get b - 1))
      | none => q
    else q

/-- Modelled from the spec: `QuotaAllocator.allocate(bandSizes, k)` —
initial rounded quotas followed by largest-remainder rebalancing until the
quotas sum exactly to `k`. -/
def allocate (sizes : BandVals) (k : ℤ) : BandVals :=
  let q0 := initQ sizes k
  rebalance sizes k (fracRem sizes k) (k - q0.total).natAbs q0

/-- A minimal perspective value used in concrete scenarios. -/
def mkP (i : String) : Perspective :=
  { id := i, bias_x := 0, significance_y := 0, text := "" }

theorem pmFind_cacheEntryStep_ne (m : PMap) (e : String × Option (List Perspective))
    (g : String) (h : e.1 ≠ g) :
    pmFind (cacheEntryStep m e) g = pmFind m g := by
  obtain ⟨c, payload⟩ := e
  cases payload with
  | none => rfl
  | some ps =>
    simp only [cacheEntryStep]
    by_cases hc : 0 < ps.length ∧ heldLen m c ≠ ps.length
    · simp only [if_pos hc]
      exact pmFind_pmSet_ne _ _ _ _ (Ne.symm h)
    · simp only [if_neg hc]

theorem foldl_cacheEntry_not_mem :
    ∀ (cd : Cache) (m : PMap) (g : String), g ∉ cd.map Prod.fst →
      pmFind (cd.foldl cacheEntryStep m) g = pmFind m g := by
  intro cd
  induction cd with
  | nil => intro m g _; rfl
  | cons e rest ih =>
    intro m g hg
    have hg1 : e.1 ≠ g := by
      intro h
      exact hg (by simp [h])
    have hg2 : g ∉ rest.map Prod.fst := fun h => hg (by simp [h])
    calc pmFind (((e :: rest) : Cache).foldl cacheEntryStep m) g
        = pmFind (rest.foldl cacheEntryStep (cacheEntryStep m e)) g := rfl
      _ = pmFind (cacheEntryStep m e) g := ih _ g hg2
      _ = pmFind m g := pmFind_cacheEntryStep_ne m e g hg1

theorem foldl_cacheEntry_find :
    ∀ (cd : Cache) (m : PMap) (g : String), (cd.map Prod.fst).Nodup →
      pmFind (cd.foldl cacheEntryStep m) g =
        match cacheLookup cd g with
        | some (some ps) =>
          if 0 < ps.length ∧ heldLen m g ≠ ps.length then some ps else pmFind m g
        | _ => pmFind m g := by
  intro cd
  induction cd with
  | nil => intro m g _; rfl
  | cons e rest ih =>
    intro m g hnd
    obtain ⟨c, payload⟩ := e
    have hnd' : c ∉ rest.map Prod.fst ∧ (rest.map Prod.fst).Nodup :=
      List.nodup_cons.mp (by simpa using hnd)
    have hnd1 : c ∉ rest.map Prod.fst := hnd'.1
    have hnd2 : (rest.map Prod.fst).Nodup := hnd'.2
    by_cases hcg : c = g
    · subst hcg
      have hstep : ((((c, payload) :: rest) : Cache).foldl cacheEntryStep m)
          = rest.foldl cacheEntryStep (cacheEntryStep m (c, payload)) := rfl
      have hlook : cacheLookup ((c, payload) :: rest) c = some payload := by
        simp [cacheLookup]
      rw [hstep, foldl_cacheEntry_not_mem rest _ c hnd1, hlook]
      cases payload with
      | none => rfl
      | some ps =>
        simp only [cacheEntryStep]
        by_cases h : 0 < ps.length ∧ heldLen m c ≠ ps.length
        · simp only [if_pos h]
          rw [pmFind_pmSet_self]
        · simp only [if_neg h]
    · have hstep : ((((c, payload) :: rest) : Cache).foldl cacheEntryStep m)
          = rest.foldl cacheEntryStep (cacheEntryStep m (c, payload)) := rfl
      have hfind : pmFind (cacheEntryStep m (c, payload)) g = pmFind m g :=
        pmFind_cacheEntryStep_ne _ _ _ hcg
      have hheld : heldLen (cacheEntryStep m (c, payload)) g = heldLen m g := by
        simp [heldLen, hfind]
      have hlook : cacheLookup ((c, payload) :: rest) g = cacheLookup rest g := by
        simp [cacheLookup, hcg]
      rw [hstep, ih _ g hnd2]
      simp only [hheld, hfind, hlook]

/-- Claim C1 (amended): for a cache snapshot with (JavaScript-object) unique
keys, a `SnapshotPull` replaces the set held for a group exactly when the
pulled entry for that group is a non-empty array whose length differs from
the held length — or, for `violet`, whenever it is a non-empty array; in all
other cases (entry absent, not an array, empty, or of equal length for a
non-violet group) the held set is retained.  In particular a pull reporting
fewer items than held is applied, not ignored, so per-group counts are not
non-decreasing. -/
theorem snapshotPull_characterization (m : PMap) (cd : Cache)
    (hnd : (cd.map Prod.fst).Nodup) (g : String) :
    pmFind (snapshotPull m cd) g =
      match cacheLookup cd g with
      | some (some ps) =>
        if (g = "violet" ∧ 0 < ps.length) ∨ (0 < ps.length ∧ heldLen m g ≠ ps.length)
        then some ps else pmFind m g
      | _ => pmFind m g := by
  have hfold := foldl_cacheEntry_find cd m g hnd
  by_cases hg : g = "violet"
  · subst hg
    cases hv : cacheLookup cd "violet" with
    | none =>
      simp only [snapshotPull, hv]
      rw [hfold, hv]
    | some payload =>
      cases payload with
      | none =>
        simp only [snapshotPull, hv]
        rw [hfold, hv]
      | some ps =>
        by_cases hlen : 0 < ps.length
        · simp only [snapshotPull, hv, if_pos hlen]
          rw [pmFind_pmSet_self]
          simp [hlen]
        · simp only [snapshotPull, hv, if_neg hlen]
          rw [hfold, hv]
          simp [hlen]
  · have hbase : pmFind (snapshotPull m cd) g = pmFind (cd.foldl cacheEntryStep m) g := by
      simp only [snapshotPull]
      cases hv : cacheLookup cd "violet" with
      | none => rfl
      | some payload =>
        cases payload with
        | none => rfl
        | some ps =>
          by_cases hlen : 0 < ps.length
          · simp only [if_pos hlen]
            exact pmFind_pmSet_ne _ _ _ _ hg
          · simp only [if_neg hlen]
    rw [hbase, hfold]
    cases hl : cacheLookup cd g with
    | none => rfl
    | some payload =>
      cases payload with
      | none => rfl
      | some ps =>
        by_cases hA : 0 < ps.length
        · by_cases hB : heldLen m g = ps.length
          · simp [hA, hB, hg]
          · simp [hA, hB, hg]
        · simp [hA, hg]

/-- A reconciled state holding five perspectives for `red`, mid-run. -/
def shrinkState : C3State :=
  { initState with
      stage := "module3", polling := true,
      perspectivesByColor :=
        [("red", [mkP "a", mkP "b", mkP "c", mkP "d", mkP "e"])] }

/-- A `/status` response while the cache reports only three `red` items. -/
def shrinkStatus : StatusResp :=
  { stage := some "module3", progress := some 50, error := none }

/-- The cache snapshot carrying three `red` perspectives. -/
def shrinkCache : Cache := [("red", some [mkP "x", mkP "y", mkP "z"])]

/-- Claim C1 (counterexample): a polled cache snapshot reporting three items
for `red` while five are held is applied, not ignored — the held count drops
from 5 to 3, so the per-group count is not non-decreasing under
`SnapshotPull` events. -/
theorem snapshotPull_shrinks_cex :
    heldLen shrinkState.perspectivesByColor "red" = 5 ∧
    heldLen ((pollStatusStep shrinkState shrinkStatus (some shrinkCache)).1.perspectivesByColor)
        "red" = 3 := by
  constructor
  · rfl
  · rfl

/-- Claim C1 (witness): the characterization evaluated on the concrete
shrinking pull — the pulled three-element array replaces the held five. -/
theorem snapshotPull_characterization_witness :
    pmFind (snapshotPull [("red", [mkP "a", mkP "b", mkP "c", mkP "d", mkP "e"])]
        [("red", some [mkP "x", mkP "y", mkP "z"])]) "red"
      = some [mkP "x", mkP "y", mkP "z"] := by
  have h := snapshotPull_characterization
    [("red", [mkP "a", mkP "b", mkP "c", mkP "d", mkP "e"])]
    [("red", some [mkP "x", mkP "y", mkP "z"])] (by decide) "red"
  rw [h]
  rfl

/-- Claim C2 (counterexample): push merges do not append after id-dedup.
After holding `red = [a]`, a `PushDelta{red,[b]}` leaves `red = [b]` — the
previously held `a` is discarded rather than kept — and a
`PushDelta{red,[a,a]}` reachable from the reset state stores id `a` twice,
violating the at-most-once id invariant. -/
theorem pushDelta_replaces_cex :
    pmFind (wsOnMessage
        { initState with perspectivesByColor := [("red", [mkP "a"])] }
        (deltaMsg "red" [mkP "b"])).perspectivesByColor "red"
      = some [mkP "b"] ∧
    idCount (wsOnMessage (startPipeline initState).1
        (deltaMsg "red" [mkP "a", mkP "a"])).perspectivesByColor "a" = 2 := by
  constructor
  · rfl
  · rfl

/-- Claim C2 (amended): merging a `PushDelta{colorGroup, perspectives[]}`
replaces the held array for that group wholesale with the event's payload
(no append, no id-based dedup), leaves every other group unchanged, and
appends the group to the reveal sequence if it is new; consequently ids are
not deduplicated — re-delivery avoids duplication only because replacement
overwrites. -/
theorem pushDelta_replace_semantics (s : C3State) (c : String)
    (ps : List Perspective) (hc : c ≠ "") :
    pmFind (wsOnMessage s (deltaMsg c ps)).perspectivesByColor c = some ps ∧
    (∀ g, g ≠ c →
      pmFind (wsOnMessage s (deltaMsg c ps)).perspectivesByColor g
        = pmFind s.perspectivesByColor g) ∧
    (wsOnMessage s (deltaMsg c ps)).revealedColors
      = (if c ∈ s.revealedColors then s.revealedColors
         else s.revealedColors ++ [c]) := by
  have h : wsOnMessage s (deltaMsg c ps) =
      { s with
        perspectivesByColor := pmSet s.perspectivesByColor c ps,
        revealedColors :=
          if c ∈ s.revealedColors then s.revealedColors
          else s.revealedColors ++ [c] } := by
    simp [wsOnMessage, deltaMsg, hc]
  rw [h]
  refine ⟨pmFind_pmSet_self _ _ _, fun g hg => pmFind_pmSet_ne _ _ _ _ hg, rfl⟩

/-- Claim C2 (witness): the replace semantics evaluated on a concrete push. -/
theorem pushDelta_replace_semantics_witness :
    pmFind (wsOnMessage
        { initState with perspectivesByColor := [("red", [mkP "a"])] }
        (deltaMsg "red" [mkP "b"])).perspectivesByColor "red" = some [mkP "b"] :=
  (pushDelta_replace_semantics
    { initState with perspectivesByColor := [("red", [mkP "a"])] }
    "red" [mkP "b"] (by decide)).1

/-- Claim C4: merging the same `PushDelta` twice yields exactly the same
component state (and hence the same ReconciledState) as merging it once —
the wholesale replacement and the guarded reveal append are idempotent. -/
theorem pushDelta_merge_idempotent (s : C3State) (c : String)
    (ps : List Perspective) :
    wsOnMessage (wsOnMessage s (deltaMsg c ps)) (deltaMsg c ps)
      = wsOnMessage s (deltaMsg c ps) := by
  by_cases hc : c = ""
  · simp [wsOnMessage, deltaMsg, hc]
  · have h : wsOnMessage s (deltaMsg c ps) =
        { s with
          perspectivesByColor := pmSet s.perspectivesByColor c ps,
          revealedColors :=
            if c ∈ s.revealedColors then s.revealedColors
            else s.revealedColors ++ [c] } := by
      simp [wsOnMessage, deltaMsg, hc]
    rw [h]
    have hmem : c ∈ (if c ∈ s.revealedColors then s.revealedColors
        else s.revealedColors ++ [c]) := by
      by_cases hm : c ∈ s.revealedColors
      · simp [hm]
      · simp [hm]
    simp [wsOnMessage, deltaMsg, hc, hmem, pmSet_pmSet_same]

/-- Claim C6: `startPipeline` is a no-op (no state change, no requests)
unless the stage is `idle`, `error` or `done`; when it does run, it clears
error/results/progress, empties the reconciled map and the reveal sequence,
sets the stage to `queued`, and emits only the socket-open request — the
`/run` trigger and the polling loop start later, from `ws.onopen` and the
trigger's success callback respectively (`wsOnOpen`, `beginPolling`). -/
theorem startPipeline_contract (s : C3State) :
    ((s.stage = "idle" ∨ s.stage = "error" ∨ s.stage = "done") →
      (startPipeline s).1.stage = "queued" ∧
      (startPipeline s).1.perspectivesByColor = [] ∧
      (startPipeline s).1.revealedColors = [] ∧
      (startPipeline s).1.error = none ∧
      (startPipeline s).1.results = none ∧
      (startPipeline s).1.progress = 0 ∧
      (startPipeline s).1.showChart = false ∧
      (startPipeline s).2 = [Act.openSocket]) ∧
    (s.stage ≠ "idle" ∧ s.stage ≠ "error" ∧ s.stage ≠ "done" →
      startPipeline s = (s, [])) := by
  constructor
  · intro h
    have hcond : ¬(s.stage ≠ "idle" ∧ s.stage ≠ "error" ∧ s.stage ≠ "done") := by
      rcases h with h | h | h <;> simp [h]
    simp [startPipeline, hcond]
  · intro h
    simp [startPipeline, h]

/-- Claim C6 (witness): starting from the idle initial state resets the
state, queues the run and emits only the socket-open request. -/
theorem startPipeline_contract_witness :
    (startPipeline initState).1.stage = "queued" ∧
    (startPipeline initState).1.perspectivesByColor = [] ∧
    (startPipeline initState).1.revealedColors = [] ∧
    (startPipeline initState).1.error = none ∧
    (startPipeline initState).1.results = none ∧
    (startPipeline initState).1.progress = 0 ∧
    (startPipeline initState).1.showChart = false ∧
    (startPipeline initState).2 = [Act.openSocket] :=
  (startPipeline_contract initState).1 (Or.inl rfl)

/-- Claim C7: malformed WebSocket events — parse failures, a missing or
empty `color`, or a `perspectives` payload that is not an array — leave the
component state completely unchanged (in particular the reconciled map and
the stage), and the polling handler enters the `error` stage exactly when
the polled status event explicitly carries one (a truthy `error` field or a
literal `error` stage). -/
theorem pollStatusStep_stage (s : C3State) (r : StatusResp) (cache : Option Cache) :
    (pollStatusStep s r cache).1.stage =
      if errTruthy r.error = true then "error" else jsStr r.stage "idle" := by
  rcases he : r.error with _ | e
  · simp only [pollStatusStep, he, errTruthy]
    split <;> rfl
  · by_cases hee : e = ""
    · subst hee
      simp only [pollStatusStep, he, errTruthy]
      simp only [ne_eq, not_true_eq_false, if_false, reduceIte]
      split <;> rfl
    · simp only [pollStatusStep, he, errTruthy]
      simp [hee]

theorem malformed_event_dropped (s : C3State) (m : WsMsg)
    (h : m.parsed = false ∨ m.color = none ∨ m.color = some "" ∨
      m.perspectives = none) :
    wsOnMessage s m = s ∧
    ∀ r cache, ((pollStatusStep s r cache).1.stage = "error" ↔
      (errTruthy r.error = true ∨ r.stage = some "error")) := by
  constructor
  · rcases h with h | h | h | h
    · simp [wsOnMessage, h]
    · rcases hp : m.perspectives with _ | ps <;>
        simp [wsOnMessage, h, hp]
    · rcases hp : m.perspectives with _ | ps <;>
        simp [wsOnMessage, h, hp]
    · rcases hc : m.color with _ | c <;>
        simp [wsOnMessage, h, hc]
  · intro r cache
    rw [pollStatusStep_stage]
    by_cases herr : errTruthy r.error = true
    · simp [herr]
    · simp only [herr, if_false, reduceIte]
      constructor
      · intro hs
        right
        rcases hr : r.stage with _ | x
        · simp [jsStr, hr] at hs
        · simp only [jsStr, hr] at hs
          by_cases hx : x = ""
          · simp [hx] at hs
          · have hs' : x = "error" := by simpa [hx] using hs
            simp only [hs']
      · rintro (hb | hb)
        · simp at hb
        · simp [jsStr, hb]

/-- Claim C7 (witness): a parse-failure message against the initial state. -/
theorem malformed_event_dropped_witness :
    wsOnMessage initState
      { parsed := false, color := none, perspectives := none, msgType := none }
      = initState :=
  (malformed_event_dropped initState
    { parsed := false, color := none, perspectives := none, msgType := none }
    (Or.inl rfl)).1

/-- Claim C9: when a polled status event explicitly carries an error (a
truthy `error` field), the controller stops the polling interval, records
the error message verbatim, enters the `error` stage, and — whenever the
same tick's `module3` cache branch is not simultaneously active — leaves
the reconciled per-color state exactly as it was (it is never cleared). -/
theorem error_event_preserves_state (s : C3State) (r : StatusResp)
    (cache : Option Cache) (e : String) (he : r.error = some e) (hne : e ≠ "") :
    (pollStatusStep s r cache).1.polling = false ∧
    (pollStatusStep s r cache).1.error = some e ∧
    (pollStatusStep s r cache).1.stage = "error" ∧
    (¬(r.stage = some "module3" ∧ 0 < r.progress.getD 0 ∧ cache.isSome = true) →
      (pollStatusStep s r cache).1.perspectivesByColor = s.perspectivesByColor) := by
  refine ⟨?_, ?_, ?_, ?_⟩
  · simp [pollStatusStep, he, hne]
  · simp [pollStatusStep, he, hne]
  · simp [pollStatusStep, he, hne]
  · intro h
    by_cases h1 : r.stage = some "module3" ∧ 0 < r.progress.getD 0
    · rcases hc : cache with _ | cd
      · simp [pollStatusStep, he, hne, h1, hc]
      · exact absurd ⟨h1.1, h1.2, by simp [hc]⟩ h
    · simp [pollStatusStep, he, hne, h1]

/-- Claim C9 (witness): a concrete error status (`{stage:"error",
error:"boom"}`) polled against a mid-run state — polling stops, the error
is recorded, the stage is `error`, and the held perspectives survive. -/
theorem error_event_preserves_state_witness :
    (pollStatusStep shrinkState
        { stage := some "error", progress := some 0, error := some "boom" }
        none).1.polling = false ∧
    (pollStatusStep shrinkState
        { stage := some "error", progress := some 0, error := some "boom" }
        none).1.error = some "boom" ∧
    (pollStatusStep shrinkState
        { stage := some "error", progress := some 0, error := some "boom" }
        none).1.stage = "error" ∧
    (pollStatusStep shrinkState
        { stage := some "error", progress := some 0, error := some "boom" }
        none).1.perspectivesByColor = shrinkState.perspectivesByColor := by
  have h := error_event_preserves_state shrinkState
    { stage := some "error", progress := some 0, error := some "boom" }
    none "boom" rfl (by decide)
  exact ⟨h.1, h.2.1, h.2.2.1, h.2.2.2 (by decide)⟩

theorem chartStep_keys (pbc obj : PMap) (c : String) :
    ∀ x ∈ pmKeys (chartStep pbc obj c),
      (x = c ∧ c ∈ pmKeys pbc) ∨ x ∈ pmKeys obj := by
  intro x hx
  cases hf : pmFind pbc c with
  | none =>
    simp only [chartStep, hf] at hx
    exact Or.inr hx
  | some ps =>
    simp only [chartStep, hf] at hx
    rcases pmKeys_pmSet_subset obj c ps x hx with h | h
    · exact Or.inl ⟨h, pmFind_isSome_mem_keys pbc c (by simp [hf])⟩
    · exact Or.inr h

theorem chartFold_mem (pbc : PMap) :
    ∀ (l : List String) (acc : PMap) (x : String),
      x ∈ pmKeys (l.foldl (chartStep pbc) acc) →
      (x ∈ l ∧ x ∈ pmKeys pbc) ∨ x ∈ pmKeys acc := by
  intro l
  induction l with
  | nil => intro acc x hx; exact Or.inr hx
  | cons a rest ih =>
    intro acc x hx
    rcases ih (chartStep pbc acc a) x hx with ⟨hr, hp⟩ | hacc
    · exact Or.inl ⟨List.mem_cons_of_mem _ hr, hp⟩
    · rcases chartStep_keys pbc acc a x hacc with ⟨hxa, hpa⟩ | hxacc
      · subst hxa
        exact Or.inl ⟨List.mem_cons_self _ _, hpa⟩
      · exact Or.inr hxacc

/-- Claim C10: the chart input is empty until the chart is mounted, and in
every state each color key it carries is both an already-revealed color and
a key of the reconciled map — data of an unrevealed group is never passed
to the chart. -/
theorem chartPerspectives_only_revealed (s : C3State) :
    (s.showChart = false → chartPerspectives s = []) ∧
    (∀ c ∈ pmKeys (chartPerspectives s),
      c ∈ s.revealedColors ∧ c ∈ pmKeys s.perspectivesByColor) := by
  constructor
  · intro h
    simp [chartPerspectives, h]
  · intro c hc
    by_cases h : s.showChart = false
    · simp [chartPerspectives, h, pmKeys] at hc
    · simp only [chartPerspectives, h, if_false, reduceIte] at hc
      rcases chartFold_mem s.perspectivesByColor s.revealedColors [] c hc with
        ⟨h1, h2⟩ | habs
      · exact ⟨h1, h2⟩
      · simp [pmKeys] at habs

/-- Claim C10 (witness): before the chart mounts the chart input is empty. -/
theorem chartPerspectives_only_revealed_witness :
    chartPerspectives shrinkState = [] :=
  (chartPerspectives_only_revealed shrinkState).1 rfl

theorem filter_head_split {α : Type} (p : α → Bool) :
    ∀ (l : List α) (x : α) (xs : List α), l.filter p = x :: xs →
      ∃ pre post, l = pre ++ x :: post ∧ (∀ c ∈ pre, p c = false) ∧ p x = true := by
  intro l
  induction l with
  | nil => intro x xs h; simp at h
  | cons a rest ih =>
    intro x xs h
    by_cases hp : p a = true
    · rw [List.filter_cons_of_pos hp] at h
      obtain ⟨rfl, _⟩ : a = x ∧ rest.filter p = xs := ⟨(List.cons.injEq _ _ _ _ ▸ h).1,
        (List.cons.injEq _ _ _ _ ▸ h).2⟩
      exact ⟨[], rest, rfl, by simp, hp⟩
    · rw [List.filter_cons_of_neg (by simpa using hp)] at h
      obtain ⟨pre, post, hl, hpre, hx⟩ := ih x xs h
      exact ⟨a :: pre, post, by simp [hl], by
        intro c hc
        rcases List.mem_cons.mp hc with rfl | hc
        · simpa using hp
        · exact hpre c hc, hx⟩

theorem nodup_subset_length_le {α : Type} [DecidableEq α] :
    ∀ (l r : List α), l.Nodup → (∀ x ∈ l, x ∈ r) → l.length ≤ r.length := by
  intro l
  induction l with
  | nil => intro r _ _; simp
  | cons a rest ih =>
    intro r hnd hsub
    have har : a ∈ r := hsub a (List.mem_cons_self _ _)
    obtain ⟨r1, r2, rfl⟩ := List.append_of_mem har
    have hnd' := List.nodup_cons.mp hnd
    have hsub' : ∀ x ∈ rest, x ∈ r1 ++ r2 := by
      intro x hx
      have hxr := hsub x (List.mem_cons_of_mem _ hx)
      have hxa : x ≠ a := fun hxa => hnd'.1 (hxa ▸ hx)
      rcases List.mem_append.mp hxr with hxr | hxr
      · exact List.mem_append.mpr (Or.inl hxr)
      · rcases List.mem_cons.mp hxr with hxr | hxr
        · exact absurd hxr hxa
        · exact List.mem_append.mpr (Or.inr hxr)
    have := ih (r1 ++ r2) hnd'.2 hsub'
    simp only [List.length_append, List.length_cons] at this ⊢
    omega

/-- Claim C3 (amended): whenever the chart is mounted and at least one known
color is unrevealed (strictly fewer revealed than known keys, keys being
unique as JavaScript object keys are), a reveal tick appends exactly one
color: the first key of the reconciled map, in key-insertion (arrival)
order, that is not yet revealed — every key inserted before it is already
revealed.  The reveal order is thus arrival order, not the fixed spectral
order. -/
theorem revealTick_first_arrival (s : C3State)
    (hshow : s.showChart = true)
    (hnd : (pmKeys s.perspectivesByColor).Nodup)
    (hlt : s.revealedColors.length < (pmKeys s.perspectivesByColor).length) :
    ∃ next pre post,
      pmKeys s.perspectivesByColor = pre ++ next :: post ∧
      (∀ c ∈ pre, c ∈ s.revealedColors) ∧
      next ∉ s.revealedColors ∧
      (revealTick s).revealedColors = s.revealedColors ++ [next] := by
  set keys := pmKeys s.perspectivesByColor with hkeys
  have hne : keys ≠ [] := by
    intro h
    rw [h] at hlt
    simp at hlt
  have hfilter : keys.filter (fun c => decide (c ∉ s.revealedColors)) ≠ [] := by
    intro hf
    have hall : ∀ x ∈ keys, x ∈ s.revealedColors := by
      intro x hx
      have := List.filter_eq_nil_iff.mp hf x hx
      simpa using this
    have := nodup_subset_length_le keys s.revealedColors hnd hall
    omega
  rcases hcons : keys.filter (fun c => decide (c ∉ s.revealedColors)) with _ | ⟨next, xs⟩
  · exact absurd hcons hfilter
  obtain ⟨pre, post, hsplit, hpre, hnext⟩ :=
    filter_head_split (fun c => decide (c ∉ s.revealedColors)) keys next xs hcons
  have hnextmem : next ∉ s.revealedColors := by simpa using hnext
  refine ⟨next, pre, post, hsplit, ?_, hnextmem, ?_⟩
  · intro c hc
    have := hpre c hc
    simpa using this
  · have hnotle : ¬(keys.length ≤ s.revealedColors.length) := by omega
    simp only [revealTick, hshow]
    rw [if_neg (by simp [hshow])]
    rw [← hkeys, if_neg hne, if_neg hnotle, hcons]
    simp [hnextmem]

/-- The probed cache snapshot containing violet (first) and red. -/
def arrivalSnap : Cache :=
  [("violet", some [mkP "v1"]), ("red", some [mkP "r1"])]

/-- State reached by loading the cache snapshot and mounting the chart. -/
def arrivalState : C3State := mountChart (loadCache initState arrivalSnap)

/-- Claim C3 (counterexample): with violet having arrived before red and
nothing revealed yet, the reveal tick reveals `violet` even though `red` —
strictly earlier in the fixed spectral order — is known and unrevealed; the
scheduler follows arrival order, not spectral order. -/
theorem revealTick_not_spectral_cex :
    (revealTick arrivalState).revealedColors = ["violet"] ∧
    "red" ∈ pmKeys arrivalState.perspectivesByColor ∧
    "red" ∉ arrivalState.revealedColors ∧
    spectralIdx "red" < spectralIdx "violet" := by
  refine ⟨rfl, ?_, ?_, ?_⟩
  · decide
  · decide
  · decide

/-- Claim C3 (witness): the amended arrival-order reveal evaluated on the
violet-then-red state — the first arrival-order unrevealed key (`violet`)
is the one revealed. -/
theorem revealTick_first_arrival_witness :
    ∃ next pre post,
      pmKeys arrivalState.perspectivesByColor = pre ++ next :: post ∧
      (∀ c ∈ pre, c ∈ arrivalState.revealedColors) ∧
      next ∉ arrivalState.revealedColors ∧
      (revealTick arrivalState).revealedColors =
        arrivalState.revealedColors ++ [next] :=
  revealTick_first_arrival arrivalState rfl (by decide) (by decide)

/-- Claim C8 (counterexample): the derived significance is not clamped to
`[0,1]` — inverting a count of `N = 264` (the value also reported by
`buildSignificanceExplanation`) yields `(256/128)^(1/2.8) = 2^(1/2.8) > 1`. -/
theorem inferSignificance_exceeds_one_cex :
    (buildSignificanceExplanation 264 none).map SigExplanation.s
      = some (inferSignificance 264) ∧
    1 < inferSignificance 264 := by
  constructor
  · simp [buildSignificanceExplanation]
  · unfold inferSignificance
    have h1 : ((264 : ℤ) : ℝ) - 8 = 256 := by norm_num
    rw [h1]
    have h2 : max (0 : ℝ) 256 = 256 := max_eq_right (by norm_num)
    rw [h2]
    have h3 : (256 : ℝ) / 128 = 2 := by norm_num
    rw [h3]
    rw [Real.one_lt_rpow_iff_of_pos (by norm_num)]
    exact Or.inl ⟨by norm_num, by norm_num⟩

/-- Claim C8 (amended): `inferSignificance(N)` computes
`(max(0, N-8)/128)^(1/2.8)` with only the lower end clamped: on every count
`N ≥ 8` it equals the spec's formula `((N-8)/128)^(1/2.8)` exactly, the
result is always nonnegative, is at most `1` exactly on counts `N ≤ 136`,
and strictly exceeds `1` for every `N > 136` (there is no upper clamp). -/
theorem inferSignificance_amended (N : ℤ) :
    0 ≤ inferSignificance N ∧
    (N ≤ 136 → inferSignificance N ≤ 1) ∧
    (136 < N → 1 < inferSignificance N) ∧
    (8 ≤ N →
      inferSignificance N = (((N : ℝ) - 8) / 128) ^ ((1 : ℝ) / 2.8)) := by
  have hbase0 : (0 : ℝ) ≤ max 0 ((N : ℝ) - 8) / 128 :=
    div_nonneg (le_max_left _ _) (by norm_num)
  refine ⟨Real.rpow_nonneg hbase0 _, ?_, ?_, ?_⟩
  · intro hN
    apply Real.rpow_le_one hbase0 _ (by norm_num)
    rw [div_le_one (by norm_num : (0 : ℝ) < 128)]
    apply max_le (by norm_num)
    have hc : (N : ℝ) ≤ 136 := by exact_mod_cast hN
    linarith
  · intro hN
    have hc : (137 : ℝ) ≤ (N : ℝ) := by exact_mod_cast hN
    have h1 : (1 : ℝ) < max 0 ((N : ℝ) - 8) / 128 := by
      rw [lt_div_iff₀ (by norm_num : (0 : ℝ) < 128)]
      calc (1 : ℝ) * 128 = 128 := by norm_num
        _ < 129 := by norm_num
        _ ≤ (N : ℝ) - 8 := by linarith
        _ ≤ max 0 ((N : ℝ) - 8) := le_max_right _ _
    rw [inferSignificance, Real.one_lt_rpow_iff_of_pos (lt_trans one_pos h1)]
    exact Or.inl ⟨h1, by norm_num⟩
  · intro hN
    have h8 : (0 : ℝ) ≤ (N : ℝ) - 8 := by
      have hc : (8 : ℝ) ≤ (N : ℝ) := by exact_mod_cast hN
      linarith
    rw [inferSignificance, max_eq_right h8]

/-- Claim C8 (witness): at the minimum count `N = 8` the derived
significance is within `[0,1]` and equals the spec's formula at that point. -/
theorem inferSignificance_amended_witness :
    0 ≤ inferSignificance 8 ∧ inferSignificance 8 ≤ 1 ∧
    inferSignificance 8 = ((((8 : ℤ) : ℝ) - 8) / 128) ^ ((1 : ℝ) / 2.8) :=
  ⟨(inferSignificance_amended 8).1, (inferSignificance_amended 8).2.1 (by norm_num),
    (inferSignificance_amended 8).2.2.2 (by norm_num)⟩

theorem BandVals.total_eq_gets (m : BandVals) :
    m.total = m.get Band.left + m.get Band.common + m.get Band.right := rfl

theorem BandVals.get_set_self (q : BandVals) (b : Band) (v : ℤ) :
    (q.set b v).get b = v := by
  cases b <;> rfl

theorem BandVals.get_set_ne (q : BandVals) (b b' : Band) (v : ℤ) (h : b' ≠ b) :
    (q.set b v).get b' = q.get b' := by
  cases b <;> cases b' <;> first | rfl | exact absurd rfl h

theorem BandVals.total_set_add (q : BandVals) (b : Band) (d : ℤ) :
    (q.set b (q.get b + d)).total = q.total + d := by
  cases b <;> simp [BandVals.set, BandVals.get, BandVals.total] <;> ring

theorem pickUp_eligible (sizes q : BandVals) (fr : Band → ℚ) (b : Band)
    (h : pickUp sizes q fr = some b) : q.get b < sizes.get b := by
  have hmem : b ∈ ([Band.left, Band.common, Band.right].filter
      (fun b => decide (q.get b < sizes.get b))) :=
    List.argmax_mem (Option.mem_def.mpr h)
  simpa using (List.mem_filter.mp hmem).2

theorem pickDown_eligible (q : BandVals) (fr : Band → ℚ) (b : Band)
    (h : pickDown q fr = some b) : 0 < q.get b := by
  have hmem : b ∈ ([Band.left, Band.common, Band.right].filter
      (fun b => decide (0 < q.get b))) :=
    List.argmin_mem (Option.mem_def.mpr h)
  simpa using (List.mem_filter.mp hmem).2

theorem pickUp_exists (sizes q : BandVals) (fr : Band → ℚ)
    (hex : ∃ b, q.get b < sizes.get b) : ∃ b, pickUp sizes q fr = some b := by
  unfold pickUp
  rcases hex with ⟨b, hb⟩
  have hne : ([Band.left, Band.common, Band.right].filter
      (fun b => decide (q.get b < sizes.get b))) ≠ [] := by
    intro hf
    have := List.filter_eq_nil_iff.mp hf b (by cases b <;> simp)
    simp [hb] at this
  rcases hopt : ([Band.left, Band.common, Band.right].filter
      (fun b => decide (q.get b < sizes.get b))).argmax fr with _ | b'
  · exact absurd (List.argmax_eq_none.mp hopt) hne
  · exact ⟨b', rfl⟩

theorem pickDown_exists (q : BandVals) (fr : Band → ℚ)
    (hex : ∃ b, 0 < q.get b) : ∃ b, pickDown q fr = some b := by
  unfold pickDown
  rcases hex with ⟨b, hb⟩
  have hne : ([Band.left, Band.common, Band.right].filter
      (fun b => decide (0 < q.get b))) ≠ [] := by
    intro hf
    have := List.filter_eq_nil_iff.mp hf b (by cases b <;> simp)
    simp [hb] at this
  rcases hopt : ([Band.left, Band.common, Band.right].filter
      (fun b => decide (0 < q.get b))).argmin fr with _ | b'
  · exact absurd (List.argmin_eq_none.mp hopt) hne
  · exact ⟨b', rfl⟩

theorem rebalance_total (sizes : BandVals) (k : ℤ) (fr : Band → ℚ)
    (hk0 : 0 ≤ k) (hkT : k ≤ sizes.total) :
    ∀ (fuel : ℕ) (q : BandVals),
      (∀ b, 0 ≤ q.get b ∧ q.get b ≤ sizes.get b) →
      (k - q.total).natAbs ≤ fuel →
      (rebalance sizes k fr fuel q).total = k := by
  intro fuel
  induction fuel with
  | zero =>
    intro q _ hfuel
    simp only [rebalance]
    omega
  | succ fuel ih =>
    intro q hinv hfuel
    simp only [rebalance]
    by_cases hpos : 0 < k - q.total
    · rw [if_pos hpos]
      have hex : ∃ b, q.get b < sizes.get b := by
        by_contra hall
        push_neg at hall
        have h1 := hall Band.left
        have h2 := hall Band.common
        have h3 := hall Band.right
        have hq := BandVals.total_eq_gets q
        have hsz := BandVals.total_eq_gets sizes
        omega
      obtain ⟨b0, hb0⟩ := pickUp_exists sizes q fr hex
      have helig := pickUp_eligible sizes q fr b0 hb0
      simp only [hb0]
      have htot := BandVals.total_set_add q b0 1
      apply ih
      · intro b'
        by_cases hb' : b' = b0
        · subst hb'
          rw [BandVals.get_set_self]
          exact ⟨by linarith [(hinv b').1], by linarith⟩
        · rw [BandVals.get_set_ne _ _ _ _ hb']
          exact hinv b'
      · omega
    · rw [if_neg hpos]
      by_cases hneg : k - q.total < 0
      · rw [if_pos hneg]
        have hex : ∃ b, 0 < q.get b := by
          by_contra hall
          push_neg at hall
          have h1 := hall Band.left
          have h2 := hall Band.common
          have h3 := hall Band.right
          have hq := BandVals.total_eq_gets q
          omega
        obtain ⟨b0, hb0⟩ := pickDown_exists q fr hex
        have helig := pickDown_eligible q fr b0 hb0
        simp only [hb0]
        have htot : (q.set b0 (q.get b0 - 1)).total = q.total - 1 := by
          have := BandVals.total_set_add q b0 (-1)
          simpa [sub_eq_add_neg] using this
        apply ih
        · intro b'
          by_cases hb' : b' = b0
          · subst hb'
            rw [BandVals.get_set_self]
            exact ⟨by linarith, by linarith [(hinv b').2]⟩
          · rw [BandVals.get_set_ne _ _ _ _ hb']
            exact hinv b'
        · omega
      · rw [if_neg hneg]
        omega

theorem initQ_bounds (sizes : BandVals) (k : ℤ)
    (hs : ∀ b, 0 ≤ sizes.get b) (hk0 : 0 ≤ k) (hkT : k ≤ sizes.total) :
    ∀ b, 0 ≤ (initQ sizes k).get b ∧ (initQ sizes k).get b ≤ sizes.get b := by
  intro b
  have hget : (initQ sizes k).get b = round (rawShare sizes k b) := by
    cases b <;> rfl
  rw [hget]
  have hT0 : (0 : ℤ) ≤ sizes.total := le_trans hk0 hkT
  have hraw0 : 0 ≤ rawShare sizes k b := by
    unfold rawShare
    apply mul_nonneg
    · apply div_nonneg
      · exact_mod_cast hs b
      · exact_mod_cast hT0
    · exact_mod_cast hk0
  have hrawle : rawShare sizes k b ≤ (sizes.get b : ℚ) := by
    unfold rawShare
    by_cases hT : sizes.total = 0
    · simp [hT]
      exact_mod_cast hs b
    · have hTpos : (0 : ℚ) < (sizes.total : ℚ) := by
        have : 0 < sizes.total := lt_of_le_of_ne hT0 (Ne.symm hT)
        exact_mod_cast this
      rw [div_mul_eq_mul_div, div_le_iff₀ hTpos]
      have hkq : (k : ℚ) ≤ (sizes.total : ℚ) := by exact_mod_cast hkT
      have hsq : (0 : ℚ) ≤ (sizes.get b : ℚ) := by exact_mod_cast hs b
      exact mul_le_mul_of_nonneg_left hkq hsq
  have hhalf : ⌊(1 / 2 : ℚ)⌋ = 0 := by
    rw [Int.floor_eq_zero_iff]
    constructor <;> norm_num
  constructor
  · rw [round_eq]
    have h0 : (0 : ℚ) ≤ rawShare sizes k b + 1 / 2 := by linarith
    exact Int.floor_nonneg.mpr h0
  · rw [round_eq]
    have h1 : rawShare sizes k b + 1 / 2 ≤ (sizes.get b : ℚ) + 1 / 2 := by linarith
    have h2 := Int.floor_le_floor h1
    have h3 : ⌊(sizes.get b : ℚ) + 1 / 2⌋ = sizes.get b := by
      rw [Int.floor_int_add, hhalf]
      ring
    omega

/-- Claim C5: `QuotaAllocator.allocate` is exactly sum-preserving — for
every `k ≥ 0` and band-size map with nonnegative sizes and
`k ≤ totalPopulation`, the per-band integer quotas sum to exactly `k`,
despite rounding, because the largest-remainder rebalancing loop moves the
total by `±1` toward `k` until it matches.  (The allocator is modelled from
the spec, its Python source being outside the frontend sources.) -/
theorem allocate_sum_eq_k (sizes : BandVals) (k : ℤ)
    (hs : ∀ b, 0 ≤ sizes.get b) (hk0 : 0 ≤ k) (hkT : k ≤ sizes.total) :
    (allocate sizes k).total = k := by
  unfold allocate
  exact rebalance_total sizes k (fracRem sizes k) hk0 hkT _ (initQ sizes k)
    (initQ_bounds sizes k hs hk0 hkT) le_rfl

/-- Claim C5 (witness): the spec's own concrete scenario —
`allocate({Left:30, Common:10, Right:60}, 10)` sums to exactly 10. -/
theorem allocate_sum_eq_k_witness :
    (0 : ℤ) ≤ 10 ∧ (10 : ℤ) ≤ (BandVals.mk 30 10 60).total ∧
    (allocate ⟨30, 10, 60⟩ 10).total = 10 :=
  ⟨by decide, by decide,
    allocate_sum_eq_k ⟨30, 10, 60⟩ 10 (fun b => by cases b <;> decide)
      (by decide) (by decide)⟩
